import Mathlib

/-!
# Verification of the local-yuque tree-structured storage engine

Shallow embedding of `src/backend/services/storage.py` (class `StorageService`)
and the `Node` entity of `src/backend/models.py`.

The persistent store is modelled as a `List Node` in table-scan order
(SQLite returns rows in insertion order for a plain full scan).  A point
lookup by primary key (`session.get(Node, id)`) is modelled as `List.find?`
on the id.  Each operation of the service is a pure function from the store
state (and its explicit inputs) to a result and, for mutators, the new
store state.  A Python `raise ValueError("Node not found")` is modelled as
`Except.error "Node not found"`.

Unbounded recursion/iteration in the Python source (`build_node_dict`'s
recursive descent, `delete_node`'s `while added:` loop) is modelled with
explicit fuel; exhausting the fuel returns `none` and models divergence of
the source.  The fuel bounds used at the top level are proved sufficient
under the acyclicity invariant of the data model.
-/

/-- The `Node` entity of `models.py`: `id`, `title`, `type` (one of
`kb`, `folder`, `doc`), optional `parent_id`, optional `content`, and a
creation timestamp (milliseconds since the epoch, modelled as `Nat`). -/
structure Node where
  id : String
  parent_id : Option String
  title : String
  type : String
  content : Option String
  created_at : Nat
deriving DecidableEq, Repr

/-- Point lookup by primary key: `session.get(Node, node_id)`. -/
def getNode (nodes : List Node) (node_id : String) : Option Node :=
  nodes.find? (fun n => n.id = node_id)

/-- `StorageService.read_node`: raises `Node not found` when the id is
absent, otherwise returns `node.content or ""` (the content, or the empty
string when the content field is `None`/empty). -/
def read_node (nodes : List Node) (node_id : String) : Except String String :=
  match getNode nodes node_id with
  | none => .error "Node not found"
  | some n => .ok (n.content.getD "")

/-- `StorageService.save_node_content`: raises `Node not found` when the id
is absent (leaving the table untouched), otherwise overwrites the node's
`content` and commits.  The pair is (outcome, table after the call). -/
def save_node_content (nodes : List Node) (node_id : String)
    (content : String) : Except String Unit × List Node :=
  match getNode nodes node_id with
  | none => (.error "Node not found", nodes)
  | some _ =>
      (.ok (),
       nodes.map (fun n => if n.id = node_id then { n with content := some content } else n))

/-- `StorageService.rename_node`: raises `Node not found` when the id is
absent (leaving the table untouched), otherwise overwrites the node's
`title`, commits and returns the updated node. -/
def rename_node (nodes : List Node) (node_id : String)
    (new_title : String) : Except String Node × List Node :=
  match getNode nodes node_id with
  | none => (.error "Node not found", nodes)
  | some n =>
      (.ok { n with title := new_title },
       nodes.map (fun m => if m.id = node_id then { m with title := new_title } else m))

/-- `StorageService.create_node`: builds a fresh `Node` with the given
parent id, type and title, `content = ""` for a `doc` and `NULL` otherwise,
and inserts it (append, matching insertion order of the table scan).
The generated UUID and the current time (`datetime.now().timestamp()*1000`)
are environment inputs, passed as the explicit parameters `newId`/`now`;
no validation of `parent_id` or `type` is performed. -/
def create_node (nodes : List Node) (parent_id : Option String)
    (type title : String) (newId : String) (now : Nat) : Node × List Node :=
  let new_node : Node :=
    ⟨newId, parent_id, title, type, if type = "doc" then some "" else none, now⟩
  (new_node, nodes ++ [new_node])

/-- The `%` wildcard of SQL LIKE patterns (matches any character
sequence, including the empty one). -/
def pctChar : Char := '%'

/-- The `_` wildcard of SQL LIKE patterns (matches any single
character). -/
def usChar : Char := '_'

/-- SQLite's default case folding for `LIKE`: ASCII uppercase letters are
folded to lowercase, every other character is left alone. -/
def asciiLower (c : Char) : Char :=
  if 65 ≤ c.toNat ∧ c.toNat ≤ 90 then Char.ofNat (c.toNat + 32) else c

/-- SQLite `LIKE` pattern matching, as executed for the WHERE clause of
`search_nodes`: `%` matches any sequence of characters, `_` matches any
single character, and ordinary characters compare ASCII-case-
insensitively (SQLite's default, no `ESCAPE` clause). -/
def likeMatch : List Char → List Char → Bool
  | [], text => text.isEmpty
  | p :: ps, text =>
      if p = pctChar then
        (List.range (text.length + 1)).any (fun k => likeMatch ps (text.drop k))
      else
        match text with
        | [] => false
        | c :: rest =>
            if p = usChar then likeMatch ps rest
            else if asciiLower p = asciiLower c then likeMatch ps rest
            else false

/-- The SQLAlchemy column operator `.contains(query)` as the code executes
it: without `autoescape` it compiles to `column LIKE '%' || query || '%'`
(the query is not escaped, so `%` and `_` inside it stay wildcards), and
the `LIKE` is evaluated by the SQLite engine configured in `database.py`,
whose default comparison is ASCII-case-insensitive. -/
def columnContains (col q : String) : Bool :=
  likeMatch (pctChar :: (q.data ++ [pctChar])) col.data

/-- The WHERE predicate of `search_nodes`:
`Node.title.contains(query) | Node.content.contains(query)`.
A `NULL` content never matches (SQL three-valued logic: `NULL LIKE p` is
not true), so a node with `content = none` is matched only via its title. -/
def matchesQuery (q : String) (n : Node) : Bool :=
  columnContains n.title q ||
    (match n.content with
     | some c => columnContains c q
     | none => false)

/-- `StorageService.search_nodes`: full scan filtered by the WHERE clause. -/
def search_nodes (nodes : List Node) (q : String) : List Node :=
  nodes.filter (matchesQuery q)

/-! ## Cascade deletion (`StorageService.delete_node`) -/

/-- One iteration of the `for node in nodes:` body inside the
`while added:` loop of `delete_node`: walks the full scan once, adding any
node whose `parent_id` is already in the delete set but whose own id is
not, and records whether anything was added.  The set is represented as a
list (membership is all that matters); additions made earlier in the same
pass are visible to later iterations, exactly as in the Python loop that
mutates `to_delete` while iterating. -/
def expandPass : List Node → List String → Bool → List String × Bool
  | [], s, added => (s, added)
  | node :: rest, s, added =>
      match node.parent_id with
      | some p =>
          if p ∈ s ∧ node.id ∉ s then expandPass rest (node.id :: s) true
          else expandPass rest s added
      | none => expandPass rest s added

/-- The `while added:` fixed-point loop of `delete_node`, with fuel.
Each recursive call corresponds to one more pass after a pass that added
at least one id. -/
def cascadeSet (nodes : List Node) : Nat → List String → List String
  | 0, s => s
  | fuel + 1, s =>
      match expandPass nodes s false with
      | (s', true) => cascadeSet nodes fuel s'
      | (s', false) => s'

/-- `StorageService.delete_node`: computes the transitive delete set by
fixed-point expansion starting from `{node_id}` and removes every row whose
id lies in it (each point delete tolerates absence).  A pass that adds
something strictly grows the set with ids of existing rows, so
`|nodes| + 1` rounds of fuel always reach the fixed point. -/
def delete_node (nodes : List Node) (node_id : String) : List Node :=
  let to_delete := cascadeSet nodes (nodes.length + 1) [node_id]
  nodes.filter (fun n => n.id ∉ to_delete)

/-! ## Tree construction (`StorageService.get_tree`) -/

/-- The nested dictionary produced by `build_node_dict`: the node's scalar
fields, plus a `children` key (present exactly when the node's type is a
container type) holding the recursively built child views. -/
inductive NodeView where
  | mk (id : String) (parentId : Option String) (title : String)
       (type : String) (createdAt : Nat) (children : Option (List NodeView))

/-- The `id` field of a view. -/
def NodeView.viewId : NodeView → String
  | .mk i _ _ _ _ _ => i

/-- The `children` field of a view (`none` when the key is absent). -/
def NodeView.children : NodeView → Option (List NodeView)
  | .mk _ _ _ _ _ c => c

/-- The list comprehension `[f n for n in l if ...]` over a fallible body:
fails as soon as one element fails. -/
def mapOpt (f : α → Option β) : List α → Option (List β)
  | [] => some []
  | a :: l =>
      match f a, mapOpt f l with
      | some b, some bs => some (b :: bs)
      | _, _ => none

/-- `build_node_dict` of `get_tree`, with fuel for the recursive descent:
emits the node's fields and, when `node.type in ['kb', 'folder']`, recurses
on every row whose `parent_id` equals this node's id. -/
def build_node_dict (results : List Node) : Nat → Node → Option NodeView
  | 0, _ => none
  | fuel + 1, node =>
      if node.type = "kb" ∨ node.type = "folder" then
        match mapOpt (build_node_dict results fuel)
            (results.filter (fun n => n.parent_id = some node.id)) with
        | some children =>
            some (.mk node.id node.parent_id node.title node.type node.created_at
              (some children))
        | none => none
      else
        some (.mk node.id node.parent_id node.title node.type node.created_at none)

/-- `StorageService.get_tree`: one full scan, then `build_node_dict` on
every root (`parent_id is None`), in scan order.  The recursion depth of
the source is bounded by the number of rows whenever it terminates at all,
so `length + 1` fuel is faithful: `none` models divergence of the source. -/
def get_tree (results : List Node) : Option (List NodeView) :=
  mapOpt (build_node_dict results (results.length + 1))
    (results.filter (fun n => n.parent_id = none))

mutual

/-- Pre-order flattening of a view to the list of ids it contains. -/
def flattenView : NodeView → List String
  | .mk i _ _ _ _ none => [i]
  | .mk i _ _ _ _ (some cs) => i :: flattenViews cs

/-- Pre-order flattening of a list of sibling views. -/
def flattenViews : List NodeView → List String
  | [] => []
  | v :: vs => flattenView v ++ flattenViews vs

end

/-! ## Search (claims C3, C10) -/

/-- The declarative semantics of SQLite `LIKE`, against which the
executable matcher `likeMatch` is proved correct: a pattern and a text
are related when the pattern's `%` wildcards expand to (possibly empty)
character sequences, its `_` wildcards to single characters, and its
ordinary characters match the text ASCII-case-insensitively. -/
inductive LikeSem : List Char → List Char → Prop
  | nil : LikeSem [] []
  | pct {ps : List Char} (pre : List Char) {text : List Char} :
      LikeSem ps text → LikeSem (pctChar :: ps) (pre ++ text)
  | usc {ps text : List Char} (c : Char) :
      LikeSem ps text → LikeSem (usChar :: ps) (c :: text)
  | chr {ps text : List Char} {p c : Char} :
      p ≠ pctChar → p ≠ usChar → asciiLower p = asciiLower c →
      LikeSem ps text → LikeSem (p :: ps) (c :: text)

/-- The column matched by the pattern `'%' || q || '%'` under SQLite
`LIKE` semantics: the test `search_nodes` actually executes. -/
def LikeContains (col q : String) : Prop :=
  LikeSem (pctChar :: (q.data ++ [pctChar])) col.data

theorem likeSem_nil_inv {text : List Char} (h : LikeSem [] text) : text = [] := by
  cases h
  rfl

theorem likeSem_cons_inv {p : Char} {ps text : List Char}
    (h : LikeSem (p :: ps) text) :
    (p = pctChar ∧ ∃ pre rest, text = pre ++ rest ∧ LikeSem ps rest) ∨
    (p = usChar ∧ ∃ c rest, text = c :: rest ∧ LikeSem ps rest) ∨
    (p ≠ pctChar ∧ p ≠ usChar ∧ ∃ c rest, text = c :: rest ∧
      asciiLower p = asciiLower c ∧ LikeSem ps rest) := by
  cases h with
  | pct pre hsem => exact Or.inl ⟨rfl, pre, _, rfl, hsem⟩
  | usc c hsem => exact Or.inr (Or.inl ⟨rfl, c, _, rfl, hsem⟩)
  | chr hne hnu heq hsem => exact Or.inr (Or.inr ⟨hne, hnu, _, _, rfl, heq, hsem⟩)

theorem likeMatch_pct (ps text : List Char) :
    likeMatch (pctChar :: ps) text
      = (List.range (text.length + 1)).any (fun k => likeMatch ps (text.drop k)) := by
  simp [likeMatch]

theorem likeMatch_cons_ne (p : Char) (hp : p ≠ pctChar) (ps : List Char) :
    likeMatch (p :: ps) [] = false ∧
    ∀ c rest, likeMatch (p :: ps) (c :: rest)
      = if p = usChar then likeMatch ps rest
        else if asciiLower p = asciiLower c then likeMatch ps rest else false := by
  constructor
  · simp [likeMatch, hp]
  · intro c rest
    simp [likeMatch, hp]

/-- The executable LIKE matcher agrees with the declarative semantics. -/
theorem likeMatch_iff (ps text : List Char) :
    likeMatch ps text = true ↔ LikeSem ps text := by
  induction ps generalizing text with
  | nil =>
      constructor
      · intro h
        have htext : text = [] := by
          cases text with
          | nil => rfl
          | cons c rest => simp [likeMatch] at h
        subst htext
        exact LikeSem.nil
      · intro h
        rw [likeSem_nil_inv h]
        rfl
  | cons p ps ih =>
      by_cases hpct : p = pctChar
      · subst hpct
        constructor
        · intro h
          rw [likeMatch_pct, List.any_eq_true] at h
          obtain ⟨k, _, hm⟩ := h
          have hsem := (ih _).mp hm
          have hsplit := List.take_append_drop k text
          exact hsplit ▸ LikeSem.pct (text.take k) hsem
        · intro h
          rw [likeMatch_pct, List.any_eq_true]
          rcases likeSem_cons_inv h with ⟨_, pre, rest, hteq, hsem⟩ |
            ⟨habs, _⟩ | ⟨habs, _⟩
          · subst hteq
            refine ⟨pre.length, ?_, ?_⟩
            · rw [List.mem_range, List.length_append]
              omega
            · rw [List.drop_left]
              exact (ih _).mpr hsem
          · exact absurd habs (by decide)
          · exact absurd rfl habs
      · by_cases husc : p = usChar
        · subst husc
          constructor
          · intro h
            cases text with
            | nil =>
                rw [(likeMatch_cons_ne usChar hpct ps).1] at h
                exact absurd h (by decide)
            | cons c rest =>
                rw [(likeMatch_cons_ne usChar hpct ps).2 c rest, if_pos rfl] at h
                exact LikeSem.usc c ((ih _).mp h)
          · intro h
            rcases likeSem_cons_inv h with ⟨habs, _⟩ |
              ⟨_, c, rest, hteq, hsem⟩ | ⟨_, habs, _⟩
            · exact absurd habs hpct
            · subst hteq
              rw [(likeMatch_cons_ne usChar hpct ps).2 c rest, if_pos rfl]
              exact (ih _).mpr hsem
            · exact absurd rfl habs
        · constructor
          · intro h
            cases text with
            | nil =>
                rw [(likeMatch_cons_ne p hpct ps).1] at h
                exact absurd h (by decide)
            | cons c rest =>
                rw [(likeMatch_cons_ne p hpct ps).2 c rest, if_neg husc] at h
                by_cases hlow : asciiLower p = asciiLower c
                · rw [if_pos hlow] at h
                  exact LikeSem.chr hpct husc hlow ((ih _).mp h)
                · rw [if_neg hlow] at h
                  exact absurd h (by decide)
          · intro h
            rcases likeSem_cons_inv h with ⟨habs, _⟩ | ⟨habs, _⟩ |
              ⟨_, _, c, rest, hteq, hlow, hsem⟩
            · exact absurd habs hpct
            · exact absurd habs husc
            · subst hteq
              rw [(likeMatch_cons_ne p hpct ps).2 c rest, if_neg husc, if_pos hlow]
              exact (ih _).mpr hsem

/-- The search predicate as the original claim words it: the query occurs
in the title or in a non-null content, as a case-sensitive verbatim
substring. -/
def MatchesSpec (q : String) (n : Node) : Prop :=
  q.data <:+: n.title.data ∨ ∃ c, n.content = some c ∧ q.data <:+: c.data

/-- C3 (amended): `search(query)` returns exactly those nodes whose title
or content matches the executed SQL test `column LIKE '%' || query || '%'`
under SQLite LIKE semantics — ASCII-case-insensitively, with `%` in the
query matching any character sequence and `_` any single character (no
tokenization, no ranking); a container node with null content is matched
only via its title. -/
theorem search_matches_like_semantics (nodes : List Node) (q : String) (n : Node) :
    n ∈ search_nodes nodes q ↔
      n ∈ nodes ∧ (LikeContains n.title q ∨
        ∃ c, n.content = some c ∧ LikeContains c q) := by
  simp only [search_nodes, List.mem_filter, matchesQuery, columnContains, LikeContains]
  cases hc : n.content with
  | none => simp [hc, likeMatch_iff]
  | some c => simp [hc, likeMatch_iff]

/-- Counterexample to C3 as stated: the executed LIKE test is
ASCII-case-insensitive, so the query `test` returns the node titled
`Test Doc` although `test` is not a case-sensitive verbatim substring of
the title, and the null content matches nothing. -/
theorem search_case_insensitive_counterexample :
    (⟨"a", none, "Test Doc", "doc", none, 0⟩ : Node) ∈
      search_nodes [⟨"a", none, "Test Doc", "doc", none, 0⟩] "test" ∧
    ¬ MatchesSpec "test" ⟨"a", none, "Test Doc", "doc", none, 0⟩ := by
  constructor
  · decide
  · rintro (h | ⟨c, hc, _⟩)
    · exact absurd h (by decide)
    · cases hc

/-- Witness for the amended C3: the query `world` returns the doc whose
content contains it. -/
theorem search_matches_like_semantics_witness :
    (⟨"b", some "a", "Page", "doc", some "hello world", 1⟩ : Node) ∈
      search_nodes [⟨"a", none, "Root", "kb", none, 0⟩,
        ⟨"b", some "a", "Page", "doc", some "hello world", 1⟩] "world" :=
  (search_matches_like_semantics _ "world" _).mpr
    ⟨by simp, Or.inr ⟨"hello world", rfl, (likeMatch_iff _ _).mp (by decide)⟩⟩

theorem likeMatch_single_pct (text : List Char) : likeMatch [pctChar] text = true := by
  rw [likeMatch_pct, List.any_eq_true]
  refine ⟨text.length, ?_, ?_⟩
  · rw [List.mem_range]
    omega
  · rw [List.drop_length]
    rfl

theorem columnContains_empty (col : String) : columnContains col "" = true := by
  show likeMatch (pctChar :: (("" : String).data ++ [pctChar])) col.data = true
  rw [show ("" : String).data = [] from rfl, List.nil_append, likeMatch_pct,
    List.any_eq_true]
  refine ⟨0, ?_, ?_⟩
  · rw [List.mem_range]
    omega
  · rw [List.drop_zero]
    exact likeMatch_single_pct col.data

/-- C10: the empty query compiles to the pattern `%%`, which has no
ordinary character to compare and so matches every (always present,
non-null) title: the search returns the whole store. -/
theorem search_empty_query_returns_all (nodes : List Node) :
    search_nodes nodes "" = nodes := by
  rw [search_nodes, List.filter_eq_self]
  intro n _
  simp [matchesQuery, columnContains_empty]

/-! ## Point operations (claims C4, C5, C6) -/

/-- The id is present in the store. -/
def IdPresent (nodes : List Node) (node_id : String) : Prop :=
  ∃ n ∈ nodes, n.id = node_id

theorem getNode_eq_none_iff (nodes : List Node) (node_id : String) :
    getNode nodes node_id = none ↔ ¬ IdPresent nodes node_id := by
  simp [getNode, List.find?_eq_none, IdPresent]

theorem getNode_some_present {nodes : List Node} {node_id : String} {n : Node}
    (h : getNode nodes node_id = some n) : n ∈ nodes ∧ n.id = node_id :=
  ⟨List.mem_of_find?_eq_some h, by simpa using List.find?_some h⟩

/-- C4: each of read/save/rename fails with `Node not found` exactly when
the id is absent; a failing save or rename leaves the table untouched; a
successful read returns the found node's content, with `None` (and the
empty string) collapsed to the empty string. -/
theorem point_ops_notfound_iff_absent (nodes : List Node) (node_id : String) :
    (read_node nodes node_id = .error "Node not found" ↔ ¬ IdPresent nodes node_id) ∧
    (∀ content, (save_node_content nodes node_id content).1 = .error "Node not found" ↔
      ¬ IdPresent nodes node_id) ∧
    (∀ title, (rename_node nodes node_id title).1 = .error "Node not found" ↔
      ¬ IdPresent nodes node_id) ∧
    (∀ content e, (save_node_content nodes node_id content).1 = .error e →
      (save_node_content nodes node_id content).2 = nodes) ∧
    (∀ title e, (rename_node nodes node_id title).1 = .error e →
      (rename_node nodes node_id title).2 = nodes) ∧
    (∀ n, getNode nodes node_id = some n →
      read_node nodes node_id = .ok (n.content.getD "")) := by
  cases h : getNode nodes node_id with
  | none =>
      have habs : ¬ IdPresent nodes node_id := (getNode_eq_none_iff nodes node_id).mp h
      refine ⟨?_, ?_, ?_, ?_, ?_, ?_⟩ <;>
        simp [read_node, save_node_content, rename_node, h, habs]
  | some n =>
      have hpres : IdPresent nodes node_id :=
        ⟨n, (getNode_some_present h).1, (getNode_some_present h).2⟩
      refine ⟨?_, ?_, ?_, ?_, ?_, ?_⟩ <;>
        simp [read_node, save_node_content, rename_node, h, hpres]

/-- Witness for C4 on concrete stores: reading an absent id fails, and
reading a container with null content succeeds with the empty string. -/
theorem point_ops_notfound_iff_absent_witness :
    read_node [] "x" = .error "Node not found" ∧
    read_node [⟨"a", none, "Root", "kb", none, 0⟩] "a" = .ok "" := by
  constructor
  · exact (point_ops_notfound_iff_absent [] "x").1.mpr (by simp [IdPresent])
  · exact (point_ops_notfound_iff_absent [⟨"a", none, "Root", "kb", none, 0⟩] "a").2.2.2.2.2
      ⟨"a", none, "Root", "kb", none, 0⟩ rfl

/-- A point lookup after an id-preserving row update finds the updated
image of whatever the lookup found before. -/
theorem getNode_map_update (nodes : List Node) (node_id : String) (u : Node → Node)
    (hu : ∀ n, (u n).id = n.id) :
    getNode (nodes.map u) node_id = (getNode nodes node_id).map u := by
  induction nodes with
  | nil => rfl
  | cons a l ih =>
      simp only [getNode, List.map_cons, List.find?] at *
      rw [hu a]
      by_cases h : a.id = node_id <;> simp [h, ih]

/-- C5: saving content `X` to a present id and then reading that id gives
back exactly `X`. -/
theorem save_then_read_roundtrip (nodes : List Node) (node_id X : String)
    (h : IdPresent nodes node_id) :
    read_node (save_node_content nodes node_id X).2 node_id = .ok X := by
  cases hg : getNode nodes node_id with
  | none =>
      exact absurd h (getNode_eq_none_iff nodes node_id |>.mp hg)
  | some m =>
      have hm : m.id = node_id := (getNode_some_present hg).2
      have hstep : getNode (save_node_content nodes node_id X).2 node_id
          = some { m with content := some X } := by
        have := getNode_map_update nodes node_id
          (fun n => if n.id = node_id then { n with content := some X } else n)
          (by intro n; by_cases hk : n.id = node_id <;> simp [hk])
        simp only [save_node_content, hg]
        rw [this, hg]
        simp [hm]
      simp [read_node, hstep]

/-- Witness for C5: a concrete save/read round trip. -/
theorem save_then_read_roundtrip_witness :
    read_node (save_node_content [⟨"b", none, "Page", "doc", some "", 1⟩] "b" "abc").2 "b"
      = .ok "abc" :=
  save_then_read_roundtrip [⟨"b", none, "Page", "doc", some "", 1⟩] "b" "abc"
    ⟨⟨"b", none, "Page", "doc", some "", 1⟩, by simp, rfl⟩

/-- C6: `create` performs no validation of its inputs: for every parent id,
type and title it appends exactly one new node carrying the generated id,
the given fields, the creation timestamp, and content `""` for a `doc` and
`NULL` otherwise, and returns that node.  Freshness of the generated UUID
is an assumption on the environment's generator. -/
theorem create_appends_fresh_node (nodes : List Node) (parent_id : Option String)
    (type title newId : String) (now : Nat)
    (hfresh : newId ∉ nodes.map Node.id) :
    (create_node nodes parent_id type title newId now).2
      = nodes ++ [(create_node nodes parent_id type title newId now).1] ∧
    (create_node nodes parent_id type title newId now).1.id = newId ∧
    (∀ m ∈ nodes, m.id ≠ (create_node nodes parent_id type title newId now).1.id) ∧
    (create_node nodes parent_id type title newId now).1.parent_id = parent_id ∧
    (create_node nodes parent_id type title newId now).1.type = type ∧
    (create_node nodes parent_id type title newId now).1.title = title ∧
    (create_node nodes parent_id type title newId now).1.created_at = now ∧
    (type = "doc" → (create_node nodes parent_id type title newId now).1.content = some "") ∧
    (type ≠ "doc" → (create_node nodes parent_id type title newId now).1.content = none) := by
  refine ⟨rfl, rfl, ?_, rfl, rfl, rfl, rfl, ?_, ?_⟩
  · intro m hm he
    have h2 : m.id ∈ nodes.map Node.id := List.mem_map_of_mem Node.id hm
    rw [show (create_node nodes parent_id type title newId now).1.id = newId from rfl] at he
    rw [he] at h2
    exact hfresh h2
  · intro ht
    simp [create_node, ht]
  · intro ht
    simp [create_node, ht]

/-- Witness for C6: creating a doc under a nonexistent parent succeeds and
appends the new node. -/
theorem create_appends_fresh_node_witness :
    (create_node [] (some "ghost") "doc" "New Node" "u1" 42).2
      = [] ++ [(create_node [] (some "ghost") "doc" "New Node" "u1" 42).1] :=
  (create_appends_fresh_node [] (some "ghost") "doc" "New Node" "u1" 42 (by simp)).1

/-! ## Cascade deletion: the delete set is exactly the reachable subtree
(claims C2, C7) -/

/-- `Below nodes root i`: the id `i` equals `root`, or `i` is the id of a
row of the scan whose `parentId` chain transitively reaches `root`. -/
inductive Below (nodes : List Node) (root : String) : String → Prop
  | refl : Below nodes root root
  | step {n : Node} {p : String} (hn : n ∈ nodes) (hp : n.parent_id = some p)
      (h : Below nodes root p) : Below nodes root n.id

/-- `Below` is monotone in the scanned record set. -/
theorem Below.mono {nodes nodes' : List Node} {root i : String}
    (hsub : ∀ n, n ∈ nodes → n ∈ nodes') (h : Below nodes root i) :
    Below nodes' root i := by
  induction h with
  | refl => exact .refl
  | step hn hp _ ih => exact .step (hsub _ hn) hp ih

/-- A single expansion pass only ever adds ids. -/
theorem expandPass_subset (l : List Node) (s : List String) (a : Bool) :
    ∀ i ∈ s, i ∈ (expandPass l s a).1 := by
  induction l generalizing s a with
  | nil => intro i hi; exact hi
  | cons node rest ih =>
      intro i hi
      cases hp : node.parent_id with
      | none =>
          simp only [expandPass, hp]
          exact ih s a i hi
      | some p =>
          by_cases hc : p ∈ s ∧ node.id ∉ s
          · simp only [expandPass, hp, if_pos hc]
            exact ih _ _ i (List.mem_cons_of_mem _ hi)
          · simp only [expandPass, hp, if_neg hc]
            exact ih s a i hi

/-- Every id added by a pass over rows of the store is `Below` the root,
provided the starting set already is. -/
theorem expandPass_sound {nodes : List Node} {root : String} (l : List Node)
    (hl : ∀ n ∈ l, n ∈ nodes) (s : List String) (a : Bool)
    (hs : ∀ i ∈ s, Below nodes root i) :
    ∀ i ∈ (expandPass l s a).1, Below nodes root i := by
  induction l generalizing s a with
  | nil => exact hs
  | cons node rest ih =>
      have hnode : node ∈ nodes := hl node (by simp)
      have hrest : ∀ n ∈ rest, n ∈ nodes := fun n hn => hl n (List.mem_cons_of_mem _ hn)
      cases hp : node.parent_id with
      | none =>
          simp only [expandPass, hp]
          exact ih hrest s a hs
      | some p =>
          by_cases hc : p ∈ s ∧ node.id ∉ s
          · simp only [expandPass, hp, if_pos hc]
            refine ih hrest _ _ ?_
            intro i hi
            rcases List.mem_cons.mp hi with h | h
            · subst h; exact .step hnode hp (hs p hc.1)
            · exact hs i h
          · simp only [expandPass, hp, if_neg hc]
            exact ih hrest s a hs

/-- Every id in the result of a pass was already present or is the id of a
scanned row. -/
theorem expandPass_elems (l : List Node) (s : List String) (a : Bool) :
    ∀ i ∈ (expandPass l s a).1, i ∈ s ∨ i ∈ l.map Node.id := by
  induction l generalizing s a with
  | nil => intro i hi; exact Or.inl hi
  | cons node rest ih =>
      intro i hi
      cases hp : node.parent_id with
      | none =>
          rcases ih s a i (by simpa [expandPass, hp] using hi) with h | h
          · exact Or.inl h
          · exact Or.inr (by simp [h])
      | some p =>
          by_cases hc : p ∈ s ∧ node.id ∉ s
          · simp only [expandPass, hp, if_pos hc] at hi
            rcases ih _ _ i hi with h | h
            · rcases List.mem_cons.mp h with h' | h'
              · exact Or.inr (by simp [h'])
              · exact Or.inl h'
            · exact Or.inr (by simp [h])
          · simp only [expandPass, hp, if_neg hc] at hi
            rcases ih s a i hi with h | h
            · exact Or.inl h
            · exact Or.inr (by simp [h])

/-- The added flag never resets: a pass started with flag `true` reports
`true`. -/
theorem expandPass_flag_true (l : List Node) (s : List String) :
    (expandPass l s true).2 = true := by
  induction l generalizing s with
  | nil => rfl
  | cons node rest ih =>
      cases hp : node.parent_id with
      | none => simpa [expandPass, hp] using ih s
      | some p =>
          by_cases hc : p ∈ s ∧ node.id ∉ s
          · simp only [expandPass, hp, if_pos hc]; exact ih _
          · simp only [expandPass, hp, if_neg hc]; exact ih s

/-- A pass that reports no addition left the set unchanged and certifies
that the set is closed under the scanned child links. -/
theorem expandPass_fixed (l : List Node) (s : List String)
    (h : (expandPass l s false).2 = false) :
    (expandPass l s false).1 = s ∧
      ∀ node ∈ l, ∀ p, node.parent_id = some p → p ∈ s → node.id ∈ s := by
  induction l generalizing s with
  | nil => exact ⟨rfl, by simp⟩
  | cons node rest ih =>
      cases hp : node.parent_id with
      | none =>
          simp only [expandPass, hp] at h
          obtain ⟨h1, h2⟩ := ih s h
          refine ⟨by simp [expandPass, hp, h1], ?_⟩
          intro m hm p hmp hps
          rcases List.mem_cons.mp hm with h' | h'
          · subst h'; rw [hp] at hmp; exact absurd hmp (by simp)
          · exact h2 m h' p hmp hps
      | some p =>
          by_cases hc : p ∈ s ∧ node.id ∉ s
          · simp only [expandPass, hp, if_pos hc] at h
            rw [expandPass_flag_true] at h
            exact absurd h (by simp)
          · simp only [expandPass, hp, if_neg hc] at h
            obtain ⟨h1, h2⟩ := ih s h
            refine ⟨by simp [expandPass, hp, if_neg hc, h1], ?_⟩
            intro m hm q hmq hqs
            rcases List.mem_cons.mp hm with h' | h'
            · subst h'
              rw [hp] at hmq
              cases hmq
              by_cases hid : m.id ∈ s
              · exact hid
              · exact absurd ⟨hqs, hid⟩ hc
            · exact h2 m h' q hmq hqs

/-- A pass that reports an addition strictly grew the set with the id of a
scanned row. -/
theorem expandPass_grew (l : List Node) (s : List String)
    (h : (expandPass l s false).2 = true) :
    ∃ i, i ∈ (expandPass l s false).1 ∧ i ∉ s ∧ i ∈ l.map Node.id := by
  induction l generalizing s with
  | nil => exact absurd h (by simp [expandPass])
  | cons node rest ih =>
      cases hp : node.parent_id with
      | none =>
          simp only [expandPass, hp] at h ⊢
          obtain ⟨i, h1, h2, h3⟩ := ih s h
          exact ⟨i, h1, h2, by simp [h3]⟩
      | some p =>
          by_cases hc : p ∈ s ∧ node.id ∉ s
          · simp only [expandPass, hp, if_pos hc]
            refine ⟨node.id, ?_, hc.2, by simp⟩
            exact expandPass_subset rest (node.id :: s) true node.id (by simp)
          · simp only [expandPass, hp, if_neg hc] at h ⊢
            obtain ⟨i, h1, h2, h3⟩ := ih s h
            exact ⟨i, h1, h2, by simp [h3]⟩

/-- Everything the fixed-point loop collects is `Below` the root, provided
the starting set is. -/
theorem cascadeSet_sound (nodes : List Node) (root : String) :
    ∀ fuel s, (∀ i ∈ s, Below nodes root i) →
      ∀ i ∈ cascadeSet nodes fuel s, Below nodes root i := by
  intro fuel
  induction fuel with
  | zero => intro s hs; exact hs
  | succ fuel ih =>
      intro s hs
      rcases h : expandPass nodes s false with ⟨s', flag⟩
      have hs' : ∀ i ∈ s', Below nodes root i := by
        intro i hi
        exact expandPass_sound nodes (fun n hn => hn) s false hs i (by rw [h]; exact hi)
      cases flag with
      | true => simpa only [cascadeSet, h] using ih s' hs'
      | false => simpa only [cascadeSet, h] using hs'

/-- With enough fuel the loop reaches its fixed point: the result contains
the seed and is closed under the scanned child links. -/
theorem cascadeSet_fixed (nodes : List Node) :
    ∀ fuel s, ((nodes.map Node.id).toFinset \ s.toFinset).card < fuel →
      (∀ i ∈ s, i ∈ cascadeSet nodes fuel s) ∧
      (∀ n ∈ nodes, ∀ p, n.parent_id = some p →
        p ∈ cascadeSet nodes fuel s → n.id ∈ cascadeSet nodes fuel s) := by
  intro fuel
  induction fuel with
  | zero => intro s hs; exact absurd hs (by simp)
  | succ fuel ih =>
      intro s hs
      rcases h : expandPass nodes s false with ⟨s', flag⟩
      cases flag with
      | false =>
          have hfix := expandPass_fixed nodes s (by rw [h])
          rw [h] at hfix
          have heq : s' = s := hfix.1
          simp only [cascadeSet, h]
          refine ⟨fun i hi => ?_, fun n hn p hp hps => ?_⟩
          · rw [heq]; exact hi
          · rw [heq] at hps ⊢
            exact hfix.2 n hn p hp hps
      | true =>
          have hsub : ∀ i ∈ s, i ∈ s' := by
            intro i hi
            have := expandPass_subset nodes s false i hi
            rwa [h] at this
          obtain ⟨j, hj1, hj2, hj3⟩ := expandPass_grew nodes s (by rw [h])
          rw [h] at hj1
          have hmeas : ((nodes.map Node.id).toFinset \ s'.toFinset).card < fuel := by
            have hss : ((nodes.map Node.id).toFinset \ s'.toFinset)
                ⊂ ((nodes.map Node.id).toFinset \ s.toFinset) := by
              constructor
              · intro i hi
                rcases Finset.mem_sdiff.mp hi with ⟨h1, h2⟩
                refine Finset.mem_sdiff.mpr ⟨h1, fun hc => h2 ?_⟩
                exact List.mem_toFinset.mpr (hsub i (List.mem_toFinset.mp hc))
              · intro hc
                have hj : j ∈ (nodes.map Node.id).toFinset \ s.toFinset :=
                  Finset.mem_sdiff.mpr ⟨List.mem_toFinset.mpr hj3,
                    fun hk => hj2 (List.mem_toFinset.mp hk)⟩
                have := hc hj
                rcases Finset.mem_sdiff.mp this with ⟨_, h2⟩
                exact h2 (List.mem_toFinset.mpr hj1)
            have := Finset.card_lt_card hss
            omega
          obtain ⟨ih1, ih2⟩ := ih s' hmeas
          simp only [cascadeSet, h]
          exact ⟨fun i hi => ih1 i (hsub i hi), ih2⟩

/-- The delete set of `delete_node` is exactly the set of ids `Below` the
deletion root, so a scanned row survives the deletion iff it is not in the
root's subtree. -/
theorem delete_mem_iff (nodes : List Node) (node_id : String) :
    ∀ n ∈ nodes, (n ∉ delete_node nodes node_id ↔ Below nodes node_id n.id) := by
  intro n hn
  have hmeas : ((nodes.map Node.id).toFinset \ ([node_id] : List String).toFinset).card
      < nodes.length + 1 := by
    have h1 : ((nodes.map Node.id).toFinset \ ([node_id] : List String).toFinset).card
        ≤ (nodes.map Node.id).toFinset.card :=
      Finset.card_le_card Finset.sdiff_subset
    have h2 : (nodes.map Node.id).toFinset.card ≤ (nodes.map Node.id).length :=
      List.toFinset_card_le _
    rw [List.length_map] at h2
    omega
  obtain ⟨hsub, hclosed⟩ := cascadeSet_fixed nodes (nodes.length + 1) [node_id] hmeas
  have hroot : node_id ∈ cascadeSet nodes (nodes.length + 1) [node_id] :=
    hsub node_id (by simp)
  have hcomplete : ∀ i, Below nodes node_id i →
      i ∈ cascadeSet nodes (nodes.length + 1) [node_id] := by
    intro i hb
    induction hb with
    | refl => exact hroot
    | step hm hp _ ihb => exact hclosed _ hm _ hp ihb
  have hsound : ∀ i ∈ cascadeSet nodes (nodes.length + 1) [node_id],
      Below nodes node_id i :=
    cascadeSet_sound nodes node_id (nodes.length + 1) [node_id]
      (by intro i hi; rcases List.mem_singleton.mp hi with h; exact h ▸ Below.refl)
  constructor
  · intro hdel
    by_contra hb
    refine hdel ?_
    simp only [delete_node, List.mem_filter]
    refine ⟨hn, ?_⟩
    simp only [decide_eq_true_eq]
    intro hin
    exact hb (hsound n.id hin)
  · intro hb hdel
    simp only [delete_node, List.mem_filter, decide_eq_true_eq] at hdel
    exact hdel.2 (hcomplete n.id hb)

/-- C2: `delete(id)` removes exactly the rows whose id is the given id or
whose `parentId` chain transitively reaches it, and no other row. -/
theorem delete_removes_exactly_subtree (nodes : List Node) (node_id : String) :
    ∀ n ∈ nodes, (n ∉ delete_node nodes node_id ↔ Below nodes node_id n.id) :=
  delete_mem_iff nodes node_id

/-- Witness for C2 at a concrete store: deleting the root kb removes its
child doc, and deleting the leaf doc removes only that doc. -/
theorem delete_removes_exactly_subtree_witness :
    (⟨"b", some "a", "Page", "doc", some "", 1⟩ : Node) ∉
      delete_node [⟨"a", none, "Root", "kb", none, 0⟩,
        ⟨"b", some "a", "Page", "doc", some "", 1⟩] "a" ∧
    (⟨"a", none, "Root", "kb", none, 0⟩ : Node) ∈
      delete_node [⟨"a", none, "Root", "kb", none, 0⟩,
        ⟨"b", some "a", "Page", "doc", some "", 1⟩] "b" := by
  constructor
  · exact (delete_removes_exactly_subtree _ "a" _ (by simp)).mpr
      (Below.step (n := ⟨"b", some "a", "Page", "doc", some "", 1⟩) (by simp) rfl Below.refl)
  · decide

/-- C7: deleting the same id twice raises nothing the second time (the
operation is total and tolerates absence) and the second call leaves the
store exactly as the first call left it. -/
theorem delete_idempotent (nodes : List Node) (node_id : String) :
    delete_node (delete_node nodes node_id) node_id = delete_node nodes node_id := by
  have hsub : ∀ n, n ∈ delete_node nodes node_id → n ∈ nodes := fun n hn =>
    List.mem_of_mem_filter hn
  have hkeep : ∀ n ∈ delete_node nodes node_id,
      n.id ∉ cascadeSet (delete_node nodes node_id)
        ((delete_node nodes node_id).length + 1) [node_id] := by
    intro n hn hin
    have hb : Below (delete_node nodes node_id) node_id n.id :=
      cascadeSet_sound _ node_id _ [node_id]
        (by intro i hi; rcases List.mem_singleton.mp hi with h; exact h ▸ Below.refl) n.id hin
    have hb2 : Below nodes node_id n.id := hb.mono hsub
    exact (delete_mem_iff nodes node_id n (hsub n hn)).mpr hb2 hn
  show (delete_node nodes node_id).filter
      (fun n => n.id ∉ cascadeSet (delete_node nodes node_id)
        ((delete_node nodes node_id).length + 1) [node_id]) = delete_node nodes node_id
  rw [List.filter_eq_self]
  intro n hn
  simp only [decide_eq_true_eq]
  exact hkeep n hn

/-! ## Tree reconstruction: invariants and helper notions
(claims C1, C8, C9) -/

/-- A rank function witnessing acyclicity of the `parentId` relation on
ids: every parent link strictly decreases the rank.  A finite link
relation is acyclic exactly when it admits such a rank. -/
def AcyclicRank (nodes : List Node) (d : String → Nat) : Prop :=
  ∀ n ∈ nodes, ∀ p, n.parent_id = some p → d p < d n.id

/-- Container types: the two types whose views carry a `children` key. -/
def IsContainer (n : Node) : Prop :=
  n.type = "kb" ∨ n.type = "folder"

/-- The forest condition with the container requirement: every non-null
`parentId` references a node of the set whose type is a container type. -/
def ParentsAreContainers (nodes : List Node) : Prop :=
  ∀ n ∈ nodes, ∀ p, n.parent_id = some p → ∃ m ∈ nodes, m.id = p ∧ IsContainer m

/-- Sanity check of the acyclicity encoding: under a rank no id lies
strictly below itself, i.e. the parent relation has no cycle through any
row of the scan. -/
theorem acyclicRank_no_cycle {nodes : List Node} {d : String → Nat}
    (hd : AcyclicRank nodes d) {n : Node} (hn : n ∈ nodes) {p : String}
    (hp : n.parent_id = some p) : ¬ Below nodes n.id p := by
  intro hb
  have hlt : d p < d n.id := hd n hn p hp
  have hle : d n.id ≤ d p := by
    clear hlt hp
    induction hb with
    | refl => exact le_refl _
    | step hm hq _ ih => exact le_trans ih (le_of_lt (hd _ hm _ hq))
  omega

/-- The rank never increases going from a descendant up to its root. -/
theorem Below.rank_le {nodes : List Node} {d : String → Nat}
    (hd : AcyclicRank nodes d) {root i : String} (h : Below nodes root i) :
    d root ≤ d i := by
  induction h with
  | refl => exact le_refl _
  | step hn hp _ ih => exact le_trans ih (le_of_lt (hd _ hn _ hp))

/-- `Below` composes. -/
theorem Below.chain {nodes : List Node} {a b c : String}
    (h1 : Below nodes a b) (h2 : Below nodes b c) : Below nodes a c := by
  induction h2 with
  | refl => exact h1
  | step hn hp _ ih => exact .step hn hp ih

/-- Inversion at the bottom of a `Below` chain. -/
theorem Below.inv {nodes : List Node} {root i : String} (h : Below nodes root i) :
    i = root ∨ ∃ n ∈ nodes, n.id = i ∧ ∃ p, n.parent_id = some p ∧ Below nodes root p := by
  induction h with
  | refl => exact Or.inl rfl
  | step hn hp hb _ => exact Or.inr ⟨_, hn, rfl, _, hp, hb⟩

/-- Decomposition of a `Below` chain at its first step from the root: a
strict descendant of `root` lies below some direct child of `root`. -/
theorem Below.cases_child {nodes : List Node} {root i : String}
    (h : Below nodes root i) :
    i = root ∨ ∃ c ∈ nodes, c.parent_id = some root ∧ Below nodes c.id i := by
  induction h with
  | refl => exact Or.inl rfl
  | step hn hp _ ih =>
      rcases ih with h' | ⟨c, hc, hcp, hci⟩
      · exact Or.inr ⟨_, hn, h' ▸ hp, Below.refl⟩
      · exact Or.inr ⟨c, hc, hcp, Below.step hn hp hci⟩

/-- In a duplicate-free record set, two ids that have a common descendant
are comparable: one lies below the other (chains up from a row are
unique). -/
theorem below_comparable {nodes : List Node}
    (hnd : (nodes.map Node.id).Nodup) {a b i : String}
    (ha : Below nodes a i) (hb : Below nodes b i) :
    Below nodes a b ∨ Below nodes b a := by
  induction ha generalizing b with
  | refl => exact Or.inr hb
  | step hn hp hprev ih =>
      rcases hb.inv with h' | ⟨n', hn', hid, p', hp', hb'⟩
      · exact Or.inl (h' ▸ Below.step hn hp hprev)
      · have hnn : n' = _ := List.inj_on_of_nodup_map hnd hn' hn hid
        subst hnn
        rw [hp] at hp'
        cases hp'
        exact ih hb'

/-- `OccursIn v w`: the view `v` occurs somewhere inside the view `w`
(as `w` itself, or nested anywhere below it). -/
inductive OccursIn : NodeView → NodeView → Prop
  | refl (v : NodeView) : OccursIn v v
  | step {v w : NodeView} {cs : List NodeView} {c : NodeView}
      (hc : w.children = some cs) (hm : c ∈ cs) (h : OccursIn v c) : OccursIn v w

/-- Occurrence composes. -/
theorem OccursIn.through {u v w : NodeView} (h1 : OccursIn u v) (h2 : OccursIn v w) :
    OccursIn u w := by
  induction h2 with
  | refl => exact h1
  | step hc hm _ ih => exact .step hc hm ih

/-- Pointwise success of a fallible map, with a relation between inputs
and outputs. -/
theorem mapOpt_forall {α β : Type} {f : α → Option β} {P : α → β → Prop} :
    ∀ l : List α, (∀ a ∈ l, ∃ b, f a = some b ∧ P a b) →
      ∃ bs, mapOpt f l = some bs ∧ List.Forall₂ P l bs := by
  intro l
  induction l with
  | nil => intro _; exact ⟨[], rfl, List.Forall₂.nil⟩
  | cons a l ih =>
      intro h
      obtain ⟨b, hb, hPb⟩ := h a (by simp)
      obtain ⟨bs, hbs, hPs⟩ := ih (fun a' ha' => h a' (List.mem_cons_of_mem _ ha'))
      exact ⟨b :: bs, by simp [mapOpt, hb, hbs], List.Forall₂.cons hPb hPs⟩

/-- Every output of a `Forall₂` is related to some input. -/
theorem forall₂_mem_right {α β : Type} {P : α → β → Prop} {l : List α} {bs : List β}
    (h : List.Forall₂ P l bs) {b : β} (hb : b ∈ bs) : ∃ a ∈ l, P a b := by
  induction h with
  | nil => cases hb
  | cons hP hrest ih =>
      rcases List.mem_cons.mp hb with h' | h'
      · exact ⟨_, by simp, h' ▸ hP⟩
      · obtain ⟨a, ha, hPa⟩ := ih h'
        exact ⟨a, List.mem_cons_of_mem _ ha, hPa⟩

/-- Every input of a `Forall₂` is related to some output. -/
theorem forall₂_mem_left {α β : Type} {P : α → β → Prop} {l : List α} {bs : List β}
    (h : List.Forall₂ P l bs) {a : α} (ha : a ∈ l) : ∃ b ∈ bs, P a b := by
  induction h with
  | nil => cases ha
  | cons hP hrest ih =>
      rcases List.mem_cons.mp ha with h' | h'
      · exact ⟨_, by simp, h' ▸ hP⟩
      · obtain ⟨b, hb, hPb⟩ := ih h'
        exact ⟨b, List.mem_cons_of_mem _ hb, hPb⟩

/-- A pairwise relation transfers across a `Forall₂`. -/
theorem forall₂_pairwise {α β : Type} {P : α → β → Prop} {R : α → α → Prop}
    {S : β → β → Prop} {l : List α} {bs : List β}
    (h : List.Forall₂ P l bs) (hp : List.Pairwise R l)
    (himp : ∀ a b a' b', P a b → P a' b' → R a a' → S b b') :
    List.Pairwise S bs := by
  induction h with
  | nil => exact List.Pairwise.nil
  | cons hP hrest ih =>
      rcases List.pairwise_cons.mp hp with ⟨hhead, htail⟩
      refine List.Pairwise.cons ?_ (ih htail)
      intro b' hb'
      obtain ⟨a', ha', hPa'⟩ := forall₂_mem_right hrest hb'
      exact himp _ _ _ _ hP hPa' (hhead a' ha')

/-- Mapped images agree along a `Forall₂` whose relation fixes them. -/
theorem forall₂_map_eq {α β γ : Type} {P : α → β → Prop} {f : α → γ} {g : β → γ}
    {l : List α} {bs : List β} (h : List.Forall₂ P l bs)
    (he : ∀ a b, P a b → g b = f a) : bs.map g = l.map f := by
  induction h with
  | nil => rfl
  | cons hP hrest ih => simp [he _ _ hP, ih]

/-- Flattening sibling views concatenates their flattenings. -/
theorem flattenViews_eq (vs : List NodeView) :
    flattenViews vs = (vs.map flattenView).flatten := by
  induction vs with
  | nil => rfl
  | cons v vs ih => simp [flattenViews, ih]

/-- Where a view inside a built tree can come from: its id is the id of a
scanned row that is either the build root itself or a row whose parent is
a container row of the scan. -/
def ViewOrigin (nodes : List Node) (x : Node) (v : NodeView) : Prop :=
  ∀ w, OccursIn w v → ∃ y ∈ nodes, y.id = w.viewId ∧
    (y = x ∨ ∃ m ∈ nodes, IsContainer m ∧ y.parent_id = some m.id)

/-- Fuel sufficiency for `build_node_dict`: under an acyclic rank, with `A`
the id set of the ancestor path, `|nodes| + 1 - |A|` fuel never runs out.
The built view carries the root's id, and every view inside it originates
from a scanned row. -/
theorem build_node_dict_total (nodes : List Node) (d : String → Nat)
    (hd : AcyclicRank nodes d) :
    ∀ fuel (A : Finset String) (x : Node), x ∈ nodes → x.id ∈ A →
      (∀ i ∈ A, i ∈ nodes.map Node.id) →
      (∀ m ∈ nodes, m.id ∈ A → d m.id ≤ d x.id) →
      nodes.length + 1 ≤ fuel + A.card →
      ∃ v, build_node_dict nodes fuel x = some v ∧ v.viewId = x.id ∧
        ViewOrigin nodes x v := by
  intro fuel
  induction fuel with
  | zero =>
      intro A x hx hxA hAids hArank hfuel
      exfalso
      have h1 : A ⊆ (nodes.map Node.id).toFinset := fun i hi =>
        List.mem_toFinset.mpr (hAids i hi)
      have h2 : A.card ≤ (nodes.map Node.id).toFinset.card := Finset.card_le_card h1
      have h3 : (nodes.map Node.id).toFinset.card ≤ nodes.length := by
        have h4 := List.toFinset_card_le (nodes.map Node.id)
        simpa using h4
      omega
  | succ fuel ih =>
      intro A x hx hxA hAids hArank hfuel
      by_cases hcont : x.type = "kb" ∨ x.type = "folder"
      · have hchild : ∀ c ∈ nodes.filter (fun n => n.parent_id = some x.id),
            ∃ v, build_node_dict nodes fuel c = some v ∧ v.viewId = c.id ∧
              ViewOrigin nodes c v := by
          intro c hcmem
          have hc : c ∈ nodes := List.mem_of_mem_filter hcmem
          have hcp : c.parent_id = some x.id := by
            have h5 := (List.mem_filter.mp hcmem).2
            simpa using h5
          have hrank : d x.id < d c.id := hd c hc _ hcp
          have hnotA : c.id ∉ A := fun hcA => absurd (hArank c hc hcA) (by omega)
          refine ih (insert c.id A) c hc (Finset.mem_insert_self _ _) ?_ ?_ ?_
          · intro i hi
            rcases Finset.mem_insert.mp hi with h' | h'
            · exact h' ▸ List.mem_map_of_mem Node.id hc
            · exact hAids i h'
          · intro m hm hmA
            rcases Finset.mem_insert.mp hmA with h' | h'
            · rw [h']
            · exact le_trans (hArank m hm h') (le_of_lt hrank)
          · rw [Finset.card_insert_of_not_mem hnotA]
            omega
        obtain ⟨vs, hvs, hf2⟩ := mapOpt_forall _ hchild
        refine ⟨.mk x.id x.parent_id x.title x.type x.created_at (some vs), ?_, rfl, ?_⟩
        · simp [build_node_dict, hcont, hvs]
        · intro w hw
          cases hw with
          | refl => exact ⟨x, hx, rfl, Or.inl rfl⟩
          | step hcs hm hwc =>
              simp only [NodeView.children, Option.some.injEq] at hcs
              subst hcs
              obtain ⟨c, hcmem, hvid, horig⟩ := forall₂_mem_right hf2 hm
              obtain ⟨y, hy, hyid, hcase⟩ := horig w hwc
              refine ⟨y, hy, hyid, ?_⟩
              rcases hcase with h' | h'
              · subst h'
                refine Or.inr ⟨x, hx, hcont, ?_⟩
                have h6 := (List.mem_filter.mp hcmem).2
                simpa using h6
              · exact Or.inr h'
      · refine ⟨.mk x.id x.parent_id x.title x.type x.created_at none, ?_, rfl, ?_⟩
        · simp [build_node_dict, hcont]
        · intro w hw
          cases hw with
          | refl => exact ⟨x, hx, rfl, Or.inl rfl⟩
          | step hcs hm hwc => simp [NodeView.children] at hcs

/-- Origin of a view occurring anywhere in `get_tree`'s forest: a root row,
or a row whose parent is a container row of the scan. -/
def ForestOrigin (nodes : List Node) (w : NodeView) : Prop :=
  ∃ y ∈ nodes, y.id = w.viewId ∧
    (y.parent_id = none ∨ ∃ m ∈ nodes, IsContainer m ∧ y.parent_id = some m.id)

/-- Under an acyclic rank `get_tree` succeeds, its forest is the pointwise
build of the roots, and every view in it originates from a scanned row. -/
theorem get_tree_total (nodes : List Node) (d : String → Nat)
    (hd : AcyclicRank nodes d) :
    ∃ forest, get_tree nodes = some forest ∧
      List.Forall₂ (fun r t => t.viewId = r.id ∧ ViewOrigin nodes r t)
        (nodes.filter (fun n => n.parent_id = none)) forest ∧
      ∀ t ∈ forest, ∀ w, OccursIn w t → ForestOrigin nodes w := by
  have hroot : ∀ r ∈ nodes.filter (fun n => n.parent_id = none),
      ∃ v, build_node_dict nodes (nodes.length + 1) r = some v ∧ v.viewId = r.id ∧
        ViewOrigin nodes r v := by
    intro r hr
    have hrmem : r ∈ nodes := List.mem_of_mem_filter hr
    refine build_node_dict_total nodes d hd (nodes.length + 1) {r.id} r hrmem (by simp)
      ?_ ?_ ?_
    · intro i hi
      have h' := Finset.mem_singleton.mp hi
      exact h' ▸ List.mem_map_of_mem Node.id hrmem
    · intro m hm hmA
      rw [Finset.mem_singleton.mp hmA]
    · rw [Finset.card_singleton]
      omega
  obtain ⟨forest, hfor, hf2⟩ := mapOpt_forall _ hroot
  refine ⟨forest, ?_, hf2, ?_⟩
  · simpa [get_tree] using hfor
  · intro t ht w hw
    obtain ⟨r, hr, hvid, horig⟩ := forall₂_mem_right hf2 ht
    obtain ⟨y, hy, hyid, hcase⟩ := horig w hw
    refine ⟨y, hy, hyid, ?_⟩
    rcases hcase with h' | h'
    · subst h'
      refine Or.inl ?_
      have h6 := (List.mem_filter.mp hr).2
      simpa using h6
    · exact Or.inr h'

/-- C9: under acyclicity of the `parentId` relation on ids, witnessed by a
rank, the recursive construction inside `get_tree` never exhausts its fuel
bound: the embedded tree builder is total. -/
theorem get_tree_terminates (nodes : List Node) (d : String → Nat)
    (hd : AcyclicRank nodes d) : (get_tree nodes).isSome := by
  obtain ⟨forest, hfor, _, _⟩ := get_tree_total nodes d hd
  simp [hfor]

/-- Witness for C9: a two-level concrete store with an explicit rank. -/
theorem get_tree_terminates_witness :
    (get_tree [⟨"a", none, "Root", "kb", none, 0⟩,
      ⟨"b", some "a", "Page", "doc", some "", 1⟩]).isSome :=
  get_tree_terminates _ (fun i => if i = "a" then 0 else 1)
    (by
      intro n hn p hp
      rcases List.mem_cons.mp hn with h | h
      · subst h
        exact absurd hp (by simp)
      · rcases List.mem_cons.mp h with h' | h'
        · subst h'
          rw [show (⟨"b", some "a", "Page", "doc", some "", 1⟩ : Node).parent_id
            = some "a" from rfl] at hp
          cases hp
          decide
        · cases h')

/-- C8: a node whose non-null `parentId` references no container node of
the set (a nonexistent id, or only non-container rows) appears nowhere in
`get_tree`'s output — it is neither a root nor reachable as any view's
child — and the tree is still produced without error. -/
theorem orphan_never_in_tree (nodes : List Node) (d : String → Nat)
    (hnd : (nodes.map Node.id).Nodup) (hd : AcyclicRank nodes d)
    (n : Node) (hn : n ∈ nodes) (p : String) (hp : n.parent_id = some p)
    (hnc : ∀ m ∈ nodes, m.id = p → ¬ IsContainer m) :
    ∃ forest, get_tree nodes = some forest ∧
      ∀ t ∈ forest, ∀ v, OccursIn v t → v.viewId ≠ n.id := by
  obtain ⟨forest, hfor, _, horig⟩ := get_tree_total nodes d hd
  refine ⟨forest, hfor, ?_⟩
  intro t ht v hv hvid
  obtain ⟨y, hy, hyid, hcase⟩ := horig t ht v hv
  have hyn : y = n := List.inj_on_of_nodup_map hnd hy hn (hyid.trans hvid)
  subst hyn
  rcases hcase with h' | ⟨m, hm, hmc, hmp⟩
  · rw [hp] at h'
    cases h'
  · rw [hp] at hmp
    have hpm := Option.some.inj hmp
    exact hnc m hm hpm.symm hmc

/-- Witness for C8: a doc row under a doc parent is dropped from the tree
of a concrete store, and the tree is still produced. -/
theorem orphan_never_in_tree_witness :
    ∃ forest, get_tree [⟨"a", none, "Root", "doc", some "", 0⟩,
        ⟨"b", some "a", "Page", "doc", some "", 1⟩] = some forest ∧
      ∀ t ∈ forest, ∀ v, OccursIn v t →
        v.viewId ≠ (⟨"b", some "a", "Page", "doc", some "", 1⟩ : Node).id := by
  refine orphan_never_in_tree _ (fun i => if i = "a" then 0 else 1) (by decide) ?_
    ⟨"b", some "a", "Page", "doc", some "", 1⟩ (by simp) "a" rfl ?_
  · intro n hn p hp
    rcases List.mem_cons.mp hn with h | h
    · subst h
      exact absurd hp (by simp)
    · rcases List.mem_cons.mp h with h' | h'
      · subst h'
        rw [show (⟨"b", some "a", "Page", "doc", some "", 1⟩ : Node).parent_id
          = some "a" from rfl] at hp
        cases hp
        decide
      · cases h'
  · intro m hm hmid
    rcases List.mem_cons.mp hm with h | h
    · subst h
      intro hc
      rcases hc with h' | h' <;> exact absurd h' (by decide)
    · rcases List.mem_cons.mp h with h' | h'
      · subst h'
        exact absurd hmid (by decide)
      · cases h'

/-! ## Flattening `get_tree`: every id appears exactly once (claim C1) -/

/-- Every container view inside `v` lists exactly the ids of the scanned
rows whose `parent_id` is the corresponding row's id. -/
def WellShaped (nodes : List Node) (v : NodeView) : Prop :=
  ∀ w, OccursIn w v → ∀ y ∈ nodes, y.id = w.viewId → IsContainer y →
    ∃ cs, w.children = some cs ∧
      cs.map NodeView.viewId = (nodes.filter (fun c => c.parent_id = some y.id)).map Node.id

/-- Two distinct children of the same parent have disjoint subtrees. -/
theorem below_children_disjoint {nodes : List Node} {d : String → Nat}
    (hnd : (nodes.map Node.id).Nodup) (hd : AcyclicRank nodes d)
    {x : String} {c c' : Node} (hc : c ∈ nodes) (hc' : c' ∈ nodes)
    (hpc : c.parent_id = some x) (hpc' : c'.parent_id = some x)
    (hne : c.id ≠ c'.id) {i : String}
    (h1 : Below nodes c.id i) (h2 : Below nodes c'.id i) : False := by
  have key : ∀ a b : Node, a ∈ nodes → b ∈ nodes → a.parent_id = some x →
      b.parent_id = some x → a.id ≠ b.id → Below nodes a.id b.id → False := by
    intro a b ha hb hpa hpb hab hbel
    rcases hbel.inv with he | ⟨n', hn', hid, p', hp', hb'⟩
    · exact hab he.symm
    · have hbn : n' = b := List.inj_on_of_nodup_map hnd hn' hb hid
      subst hbn
      rw [hpb] at hp'
      have hx := Option.some.inj hp'
      rw [← hx] at hb'
      have hle : d a.id ≤ d x := hb'.rank_le hd
      have hlt : d x < d a.id := hd a ha x hpa
      omega
  rcases below_comparable hnd h1 h2 with h | h
  · exact key c c' hc hc' hpc hpc' hne h
  · exact key c' c hc' hc hpc' hpc (Ne.symm hne) h

/-- Two distinct roots have disjoint subtrees. -/
theorem below_roots_disjoint {nodes : List Node}
    (hnd : (nodes.map Node.id).Nodup)
    {r r' : Node} (hr : r ∈ nodes) (hr' : r' ∈ nodes)
    (hpr : r.parent_id = none) (hpr' : r'.parent_id = none)
    (hne : r.id ≠ r'.id) {i : String}
    (h1 : Below nodes r.id i) (h2 : Below nodes r'.id i) : False := by
  have key : ∀ a b : Node, a ∈ nodes → b ∈ nodes → b.parent_id = none →
      a.id ≠ b.id → Below nodes a.id b.id → False := by
    intro a b ha hb hpb hab hbel
    rcases hbel.inv with he | ⟨n', hn', hid, p', hp', hb'⟩
    · exact hab he.symm
    · have hbn : n' = b := List.inj_on_of_nodup_map hnd hn' hb hid
      subst hbn
      rw [hpb] at hp'
      cases hp'
  rcases below_comparable hnd h1 h2 with h | h
  · exact key r r' hr hr' hpr' hne h
  · exact key r' r hr' hr hpr (Ne.symm hne) h

/-- With parents existing in the set and an acyclic rank, every row lies
below some root. -/
theorem exists_root_above {nodes : List Node} {d : String → Nat}
    (hd : AcyclicRank nodes d) (hpc : ParentsAreContainers nodes) :
    ∀ k, ∀ y ∈ nodes, d y.id < k →
      ∃ r ∈ nodes, r.parent_id = none ∧ Below nodes r.id y.id := by
  intro k
  induction k with
  | zero => intro y _ h; omega
  | succ k ih =>
      intro y hy hk
      cases hp : y.parent_id with
      | none => exact ⟨y, hy, hp, Below.refl⟩
      | some p =>
          obtain ⟨m, hm, hmid, _⟩ := hpc y hy p hp
          have hrank : d p < d y.id := hd y hy p hp
          have hmk : d m.id < k := by rw [hmid]; omega
          obtain ⟨r, hr, hrp, hrb⟩ := ih m hm hmk
          rw [hmid] at hrb
          exact ⟨r, hr, hrp, Below.step hy hp hrb⟩

theorem flattenView_some (i : String) (pid : Option String) (t ty : String)
    (ca : Nat) (cs : List NodeView) :
    flattenView (.mk i pid t ty ca (some cs)) = i :: flattenViews cs := by
  rw [flattenView]

theorem flattenView_none (i : String) (pid : Option String) (t ty : String)
    (ca : Nat) :
    flattenView (.mk i pid t ty ca none) = [i] := by
  rw [flattenView]

/-- The strong builder invariant: under distinct ids, an acyclic rank and
container parents, `build_node_dict` succeeds and its flattening lists,
without duplicates, exactly the ids of the rows below the build root, and
every container view inside lists exactly its row's children. -/
theorem build_node_dict_flatten (nodes : List Node) (d : String → Nat)
    (hnd : (nodes.map Node.id).Nodup) (hd : AcyclicRank nodes d)
    (hpc : ParentsAreContainers nodes) :
    ∀ fuel (A : Finset String) (x : Node), x ∈ nodes → x.id ∈ A →
      (∀ i ∈ A, i ∈ nodes.map Node.id) →
      (∀ m ∈ nodes, m.id ∈ A → d m.id ≤ d x.id) →
      nodes.length + 1 ≤ fuel + A.card →
      ∃ v, build_node_dict nodes fuel x = some v ∧ v.viewId = x.id ∧
        (flattenView v).Nodup ∧
        (∀ i, i ∈ flattenView v ↔ i ∈ nodes.map Node.id ∧ Below nodes x.id i) ∧
        WellShaped nodes v := by
  intro fuel
  induction fuel with
  | zero =>
      intro A x hx hxA hAids hArank hfuel
      exfalso
      have h1 : A ⊆ (nodes.map Node.id).toFinset := fun i hi =>
        List.mem_toFinset.mpr (hAids i hi)
      have h2 : A.card ≤ (nodes.map Node.id).toFinset.card := Finset.card_le_card h1
      have h3 : (nodes.map Node.id).toFinset.card ≤ nodes.length := by
        have h4 := List.toFinset_card_le (nodes.map Node.id)
        simpa using h4
      omega
  | succ fuel ih =>
      intro A x hx hxA hAids hArank hfuel
      by_cases hcont : x.type = "kb" ∨ x.type = "folder"
      · have hchild : ∀ c ∈ nodes.filter (fun n => n.parent_id = some x.id),
            ∃ v, build_node_dict nodes fuel c = some v ∧
              (c ∈ nodes ∧ c.parent_id = some x.id ∧ v.viewId = c.id ∧
               (flattenView v).Nodup ∧
               (∀ i, i ∈ flattenView v ↔ i ∈ nodes.map Node.id ∧ Below nodes c.id i) ∧
               WellShaped nodes v) := by
          intro c hcmem
          have hc : c ∈ nodes := List.mem_of_mem_filter hcmem
          have hcp : c.parent_id = some x.id := by
            have h5 := (List.mem_filter.mp hcmem).2
            simpa using h5
          have hrank : d x.id < d c.id := hd c hc _ hcp
          have hnotA : c.id ∉ A := fun hcA => absurd (hArank c hc hcA) (by omega)
          have hAins : ∀ i ∈ insert c.id A, i ∈ nodes.map Node.id := by
            intro i hi
            rcases Finset.mem_insert.mp hi with h' | h'
            · exact h' ▸ List.mem_map_of_mem Node.id hc
            · exact hAids i h'
          have hRins : ∀ m ∈ nodes, m.id ∈ insert c.id A → d m.id ≤ d c.id := by
            intro m hm hmA
            rcases Finset.mem_insert.mp hmA with h' | h'
            · rw [h']
            · exact le_trans (hArank m hm h') (le_of_lt hrank)
          have hFins : nodes.length + 1 ≤ fuel + (insert c.id A).card := by
            rw [Finset.card_insert_of_not_mem hnotA]
            omega
          obtain ⟨v, hv, hvid, hvn, hvm, hvw⟩ := ih (insert c.id A) c hc
            (Finset.mem_insert_self _ _) hAins hRins hFins
          exact ⟨v, hv, hc, hcp, hvid, hvn, hvm, hvw⟩
        obtain ⟨vs, hvs, hf2⟩ := mapOpt_forall _ hchild
        have hmem_vs : ∀ i, i ∈ flattenViews vs ↔
            ∃ c, c ∈ nodes ∧ c.parent_id = some x.id ∧
              i ∈ nodes.map Node.id ∧ Below nodes c.id i := by
          intro i
          rw [flattenViews_eq]
          constructor
          · intro hi
            rw [List.mem_flatten] at hi
            obtain ⟨l, hl, hil⟩ := hi
            rw [List.mem_map] at hl
            obtain ⟨vc, hvc, rfl⟩ := hl
            obtain ⟨c, _, hcn, hcp, _, _, hcm, _⟩ := forall₂_mem_right hf2 hvc
            exact ⟨c, hcn, hcp, ((hcm i).mp hil).1, ((hcm i).mp hil).2⟩
          · rintro ⟨c, hcn, hcp, hiid, hib⟩
            have hcch : c ∈ nodes.filter (fun n => n.parent_id = some x.id) :=
              List.mem_filter.mpr ⟨hcn, by simp [hcp]⟩
            obtain ⟨vc, hvc, _, _, _, _, hcm, _⟩ := forall₂_mem_left hf2 hcch
            rw [List.mem_flatten]
            exact ⟨flattenView vc, List.mem_map_of_mem _ hvc, (hcm i).mpr ⟨hiid, hib⟩⟩
        have hhead : x.id ∉ flattenViews vs := by
          intro hmem
          obtain ⟨c, hcn, hcp, _, hib⟩ := (hmem_vs x.id).mp hmem
          have h1 : d c.id ≤ d x.id := hib.rank_le hd
          have h2 : d x.id < d c.id := hd c hcn _ hcp
          omega
        have htail : (flattenViews vs).Nodup := by
          rw [flattenViews_eq, List.nodup_flatten]
          constructor
          · intro l hl
            rw [List.mem_map] at hl
            obtain ⟨vc, hvc, rfl⟩ := hl
            obtain ⟨c, _, hP⟩ := forall₂_mem_right hf2 hvc
            exact hP.2.2.2.1
          · rw [List.pairwise_map]
            have hch_nd : List.Pairwise (fun a b : Node => a.id ≠ b.id)
                (nodes.filter (fun n => n.parent_id = some x.id)) := by
              have hsub := List.filter_sublist
                (p := fun n : Node => decide (n.parent_id = some x.id)) nodes
              have h6 : ((nodes.filter
                  (fun n => n.parent_id = some x.id)).map Node.id).Nodup :=
                List.Nodup.sublist (List.Sublist.map Node.id hsub) hnd
              exact List.pairwise_map.mp h6
            refine forall₂_pairwise hf2 hch_nd ?_
            intro a b a' b' hPa hPa' hne
            intro i hib hib'
            exact below_children_disjoint hnd hd hPa.1 hPa'.1 hPa.2.1 hPa'.2.1 hne
              ((hPa.2.2.2.2.1 i).mp hib).2 ((hPa'.2.2.2.2.1 i).mp hib').2
        have hmem : ∀ i, i ∈ x.id :: flattenViews vs ↔
            i ∈ nodes.map Node.id ∧ Below nodes x.id i := by
          intro i
          rw [List.mem_cons]
          constructor
          · rintro (rfl | hi)
            · exact ⟨List.mem_map_of_mem Node.id hx, Below.refl⟩
            · obtain ⟨c, hcn, hcp, hiid, hib⟩ := (hmem_vs i).mp hi
              exact ⟨hiid, Below.chain (Below.step hcn hcp Below.refl) hib⟩
          · rintro ⟨hiid, hib⟩
            rcases hib.cases_child with rfl | ⟨c, hcn, hcp, hci⟩
            · exact Or.inl rfl
            · exact Or.inr ((hmem_vs i).mpr ⟨c, hcn, hcp, hiid, hci⟩)
        have hws : WellShaped nodes
            (NodeView.mk x.id x.parent_id x.title x.type x.created_at (some vs)) := by
          intro w hw y hy hyid hyc
          cases hw with
          | refl =>
              have hyx : y = x := List.inj_on_of_nodup_map hnd hy hx
                (by simpa [NodeView.viewId] using hyid)
              subst hyx
              exact ⟨vs, rfl, forall₂_map_eq hf2 (fun c vc hP => hP.2.2.1)⟩
          | step hcs hm hwc =>
              simp only [NodeView.children, Option.some.injEq] at hcs
              subst hcs
              obtain ⟨c, _, hP⟩ := forall₂_mem_right hf2 hm
              exact hP.2.2.2.2.2 w hwc y hy hyid hyc
        refine ⟨.mk x.id x.parent_id x.title x.type x.created_at (some vs),
          ?_, rfl, ?_, ?_, hws⟩
        · simp [build_node_dict, hcont, hvs]
        · rw [flattenView_some]
          exact List.nodup_cons.mpr ⟨hhead, htail⟩
        · intro i
          rw [flattenView_some]
          exact hmem i
      · refine ⟨.mk x.id x.parent_id x.title x.type x.created_at none,
          ?_, rfl, ?_, ?_, ?_⟩
        · simp [build_node_dict, hcont]
        · rw [flattenView_none]
          simp
        · intro i
          rw [flattenView_none]
          constructor
          · intro hi
            have h' := List.mem_singleton.mp hi
            subst h'
            exact ⟨List.mem_map_of_mem Node.id hx, Below.refl⟩
          · rintro ⟨hiid, hib⟩
            rcases hib.cases_child with rfl | ⟨c, hcn, hcp, _⟩
            · simp
            · obtain ⟨m, hm, hmid, hmc⟩ := hpc c hcn _ hcp
              have hmx : m = x := List.inj_on_of_nodup_map hnd hm hx hmid
              subst hmx
              exact absurd hmc hcont
        · intro w hw y hy hyid hyc
          cases hw with
          | refl =>
              have hyx : y = x := List.inj_on_of_nodup_map hnd hy hx
                (by simpa [NodeView.viewId] using hyid)
              subst hyx
              exact absurd hyc hcont
          | step hcs _ _ => simp [NodeView.children] at hcs

/-- Forest-level strong invariant: `get_tree` succeeds and each root's view
satisfies the strong builder invariant. -/
theorem get_tree_flatten (nodes : List Node) (d : String → Nat)
    (hnd : (nodes.map Node.id).Nodup) (hd : AcyclicRank nodes d)
    (hpc : ParentsAreContainers nodes) :
    ∃ forest, get_tree nodes = some forest ∧
      List.Forall₂ (fun r t => r ∈ nodes ∧ r.parent_id = none ∧ t.viewId = r.id ∧
          (flattenView t).Nodup ∧
          (∀ i, i ∈ flattenView t ↔ i ∈ nodes.map Node.id ∧ Below nodes r.id i) ∧
          WellShaped nodes t)
        (nodes.filter (fun n => n.parent_id = none)) forest := by
  have hroot : ∀ r ∈ nodes.filter (fun n => n.parent_id = none),
      ∃ v, build_node_dict nodes (nodes.length + 1) r = some v ∧
        (r ∈ nodes ∧ r.parent_id = none ∧ v.viewId = r.id ∧
         (flattenView v).Nodup ∧
         (∀ i, i ∈ flattenView v ↔ i ∈ nodes.map Node.id ∧ Below nodes r.id i) ∧
         WellShaped nodes v) := by
    intro r hr
    have hrmem : r ∈ nodes := List.mem_of_mem_filter hr
    have hrp : r.parent_id = none := by
      have h5 := (List.mem_filter.mp hr).2
      simpa using h5
    have hA1 : ∀ i ∈ ({r.id} : Finset String), i ∈ nodes.map Node.id := by
      intro i hi
      have h' := Finset.mem_singleton.mp hi
      exact h' ▸ List.mem_map_of_mem Node.id hrmem
    have hA2 : ∀ m ∈ nodes, m.id ∈ ({r.id} : Finset String) → d m.id ≤ d r.id := by
      intro m hm hmA
      rw [Finset.mem_singleton.mp hmA]
    have hA3 : nodes.length + 1 ≤ (nodes.length + 1) + ({r.id} : Finset String).card := by
      rw [Finset.card_singleton]
      omega
    obtain ⟨v, hv, hvid, hvn, hvm, hvw⟩ := build_node_dict_flatten nodes d hnd hd hpc
      (nodes.length + 1) {r.id} r hrmem (by simp) hA1 hA2 hA3
    exact ⟨v, hv, hrmem, hrp, hvid, hvn, hvm, hvw⟩
  obtain ⟨forest, hfor, hf2⟩ := mapOpt_forall _ hroot
  refine ⟨forest, ?_, hf2⟩
  simpa [get_tree] using hfor

/-- Every row of a well-formed record set has a view occurring in the
forest, whose container views list exactly the row's children. -/
theorem node_view_occurs (nodes : List Node) (d : String → Nat)
    (_hnd : (nodes.map Node.id).Nodup) (hd : AcyclicRank nodes d)
    (hpc : ParentsAreContainers nodes) {forest : List NodeView}
    (hf2 : List.Forall₂ (fun r t => r ∈ nodes ∧ r.parent_id = none ∧ t.viewId = r.id ∧
        (flattenView t).Nodup ∧
        (∀ i, i ∈ flattenView t ↔ i ∈ nodes.map Node.id ∧ Below nodes r.id i) ∧
        WellShaped nodes t)
      (nodes.filter (fun n => n.parent_id = none)) forest) :
    ∀ k, ∀ y ∈ nodes, d y.id < k →
      ∃ t ∈ forest, ∃ v, OccursIn v t ∧ v.viewId = y.id ∧
        (IsContainer y → ∃ cs, v.children = some cs ∧
          cs.map NodeView.viewId =
            (nodes.filter (fun c => c.parent_id = some y.id)).map Node.id) := by
  intro k
  induction k with
  | zero => intro y _ h; omega
  | succ k ih =>
      intro y hy hk
      cases hp : y.parent_id with
      | none =>
          have hyr : y ∈ nodes.filter (fun n => n.parent_id = none) :=
            List.mem_filter.mpr ⟨hy, by simp [hp]⟩
          obtain ⟨t, ht, _, _, hvid, _, _, hws⟩ := forall₂_mem_left hf2 hyr
          refine ⟨t, ht, t, OccursIn.refl t, hvid, ?_⟩
          intro hyc
          exact hws t (OccursIn.refl t) y hy hvid.symm hyc
      | some p =>
          obtain ⟨m, hm, hmid, hmc⟩ := hpc y hy p hp
          have hrank : d p < d y.id := hd y hy p hp
          have hmk : d m.id < k := by rw [hmid]; omega
          obtain ⟨t, ht, vm, hocc, hvmid, hshape⟩ := ih m hm hmk
          obtain ⟨cs, hcs, hmap⟩ := hshape hmc
          have hych : y ∈ nodes.filter (fun c => c.parent_id = some m.id) :=
            List.mem_filter.mpr ⟨hy, by simp [hp, hmid]⟩
          have hyid_mem : y.id ∈ cs.map NodeView.viewId := by
            rw [hmap]
            exact List.mem_map_of_mem Node.id hych
          rw [List.mem_map] at hyid_mem
          obtain ⟨vy, hvy, hvyid⟩ := hyid_mem
          obtain ⟨r, hr, _, _, _, _, _, hws⟩ := forall₂_mem_right hf2 ht
          have hoccy : OccursIn vy t :=
            OccursIn.through (OccursIn.step hcs hvy (OccursIn.refl vy)) hocc
          refine ⟨t, ht, vy, hoccy, hvyid, ?_⟩
          intro hyc
          exact hws vy hoccy y hy hvyid.symm hyc

/-- C1 (amended): for a record set with pairwise-distinct ids (as the
primary key guarantees) whose parent links are acyclic and reference
container rows of the set, `get_tree` succeeds, the pre-order flattening
of its forest is a permutation of the ids of the set (each id exactly
once), and every non-root row's id appears in the children list of a view
carrying its parent's id. -/
theorem get_tree_flatten_perm (nodes : List Node) (d : String → Nat)
    (hnd : (nodes.map Node.id).Nodup) (hd : AcyclicRank nodes d)
    (hpc : ParentsAreContainers nodes) :
    ∃ forest, get_tree nodes = some forest ∧
      ((forest.map flattenView).flatten).Perm (nodes.map Node.id) ∧
      ∀ n ∈ nodes, ∀ p, n.parent_id = some p →
        ∃ t ∈ forest, ∃ v, OccursIn v t ∧ v.viewId = p ∧
          ∃ cs, v.children = some cs ∧ n.id ∈ cs.map NodeView.viewId := by
  obtain ⟨forest, hfor, hf2⟩ := get_tree_flatten nodes d hnd hd hpc
  refine ⟨forest, hfor, ?_, ?_⟩
  · have hflat_nd : ((forest.map flattenView).flatten).Nodup := by
      rw [List.nodup_flatten]
      constructor
      · intro l hl
        rw [List.mem_map] at hl
        obtain ⟨t, ht, rfl⟩ := hl
        obtain ⟨r, _, hP⟩ := forall₂_mem_right hf2 ht
        exact hP.2.2.2.1
      · rw [List.pairwise_map]
        have hroots_nd : List.Pairwise (fun a b : Node => a.id ≠ b.id)
            (nodes.filter (fun n => n.parent_id = none)) := by
          have hsub := List.filter_sublist
            (p := fun n : Node => decide (n.parent_id = none)) nodes
          have h6 : ((nodes.filter (fun n => n.parent_id = none)).map Node.id).Nodup :=
            List.Nodup.sublist (List.Sublist.map Node.id hsub) hnd
          exact List.pairwise_map.mp h6
        refine forall₂_pairwise hf2 hroots_nd ?_
        intro a b a' b' hPa hPa' hne i hib hib'
        exact below_roots_disjoint hnd hPa.1 hPa'.1 hPa.2.1 hPa'.2.1 hne
          ((hPa.2.2.2.2.1 i).mp hib).2 ((hPa'.2.2.2.2.1 i).mp hib').2
    have hmem_iff : ∀ i, i ∈ (forest.map flattenView).flatten ↔
        i ∈ nodes.map Node.id := by
      intro i
      constructor
      · intro hi
        rw [List.mem_flatten] at hi
        obtain ⟨l, hl, hil⟩ := hi
        rw [List.mem_map] at hl
        obtain ⟨t, ht, rfl⟩ := hl
        obtain ⟨r, _, hP⟩ := forall₂_mem_right hf2 ht
        exact ((hP.2.2.2.2.1 i).mp hil).1
      · intro hi
        rw [List.mem_map] at hi
        obtain ⟨y, hy, rfl⟩ := hi
        obtain ⟨r, hr, hrp, hrb⟩ := exists_root_above hd hpc (d y.id + 1) y hy (by omega)
        have hrf : r ∈ nodes.filter (fun n => n.parent_id = none) :=
          List.mem_filter.mpr ⟨hr, by simp [hrp]⟩
        obtain ⟨t, ht, hP⟩ := forall₂_mem_left hf2 hrf
        rw [List.mem_flatten]
        exact ⟨flattenView t, List.mem_map_of_mem _ ht,
          (hP.2.2.2.2.1 y.id).mpr ⟨List.mem_map_of_mem Node.id hy, hrb⟩⟩
    refine List.perm_of_nodup_nodup_toFinset_eq hflat_nd hnd ?_
    ext i
    rw [List.mem_toFinset, List.mem_toFinset]
    exact hmem_iff i
  · intro n hn p hp
    obtain ⟨m, hm, hmid, hmc⟩ := hpc n hn p hp
    obtain ⟨t, ht, v, hocc, hvid, hshape⟩ := node_view_occurs nodes d hnd hd hpc hf2
      (d m.id + 1) m hm (by omega)
    obtain ⟨cs, hcs, hmap⟩ := hshape hmc
    refine ⟨t, ht, v, hocc, by rw [hvid, hmid], cs, hcs, ?_⟩
    rw [hmap]
    refine List.mem_map_of_mem Node.id ?_
    exact List.mem_filter.mpr ⟨hn, by simp [hp, hmid]⟩

/-- Counterexample to C1 as stated: the two-row record set with a `doc`
root `a` and a row `b` whose `parentId` references `a` has distinct ids,
acyclic parent links (an explicit rank is given) and every non-null
`parentId` referencing a row of the set — a forest in the claim's own
sense — yet the pre-order flattening of `get_tree`'s output is `["a"]`,
which is not a permutation of the two ids: `b`'s parent is not a
container, so `b` is dropped. -/
theorem get_tree_flatten_perm_counterexample :
    (([⟨"a", none, "Root", "doc", some "", 0⟩,
        ⟨"b", some "a", "Page", "doc", some "", 1⟩] : List Node).map Node.id).Nodup ∧
    AcyclicRank [⟨"a", none, "Root", "doc", some "", 0⟩,
        ⟨"b", some "a", "Page", "doc", some "", 1⟩]
      (fun i => if i = "a" then 0 else 1) ∧
    (∀ n ∈ ([⟨"a", none, "Root", "doc", some "", 0⟩,
        ⟨"b", some "a", "Page", "doc", some "", 1⟩] : List Node), ∀ p,
      n.parent_id = some p →
        p ∈ ([⟨"a", none, "Root", "doc", some "", 0⟩,
          ⟨"b", some "a", "Page", "doc", some "", 1⟩] : List Node).map Node.id) ∧
    (get_tree [⟨"a", none, "Root", "doc", some "", 0⟩,
        ⟨"b", some "a", "Page", "doc", some "", 1⟩]).map
      (fun f => (f.map flattenView).flatten) = some ["a"] ∧
    ¬ (["a"] : List String).Perm
      (([⟨"a", none, "Root", "doc", some "", 0⟩,
        ⟨"b", some "a", "Page", "doc", some "", 1⟩] : List Node).map Node.id) := by
  refine ⟨by decide, ?_, ?_, by rfl, by decide⟩
  · intro n hn p hp
    rcases List.mem_cons.mp hn with h | h
    · subst h
      exact absurd hp (by simp)
    · rcases List.mem_cons.mp h with h' | h'
      · subst h'
        rw [show (⟨"b", some "a", "Page", "doc", some "", 1⟩ : Node).parent_id
          = some "a" from rfl] at hp
        cases hp
        decide
      · cases h'
  · intro n hn p hp
    rcases List.mem_cons.mp hn with h | h
    · subst h
      exact absurd hp (by simp)
    · rcases List.mem_cons.mp h with h' | h'
      · subst h'
        rw [show (⟨"b", some "a", "Page", "doc", some "", 1⟩ : Node).parent_id
          = some "a" from rfl] at hp
        cases hp
        decide
      · cases h'

/-- Witness for the amended C1 at a concrete well-formed store. -/
theorem get_tree_flatten_perm_witness :
    ∃ forest, get_tree [⟨"a", none, "Root", "kb", none, 0⟩,
        ⟨"b", some "a", "Page", "doc", some "", 1⟩] = some forest ∧
      ((forest.map flattenView).flatten).Perm
        (([⟨"a", none, "Root", "kb", none, 0⟩,
          ⟨"b", some "a", "Page", "doc", some "", 1⟩] : List Node).map Node.id) ∧
      ∀ n ∈ ([⟨"a", none, "Root", "kb", none, 0⟩,
          ⟨"b", some "a", "Page", "doc", some "", 1⟩] : List Node), ∀ p,
        n.parent_id = some p →
          ∃ t ∈ forest, ∃ v, OccursIn v t ∧ v.viewId = p ∧
            ∃ cs, v.children = some cs ∧ n.id ∈ cs.map NodeView.viewId := by
  refine get_tree_flatten_perm _ (fun i => if i = "a" then 0 else 1) (by decide) ?_ ?_
  · intro n hn p hp
    rcases List.mem_cons.mp hn with h | h
    · subst h
      exact absurd hp (by simp)
    · rcases List.mem_cons.mp h with h' | h'
      · subst h'
        rw [show (⟨"b", some "a", "Page", "doc", some "", 1⟩ : Node).parent_id
          = some "a" from rfl] at hp
        cases hp
        decide
      · cases h'
  · intro n hn p hp
    rcases List.mem_cons.mp hn with h | h
    · subst h
      exact absurd hp (by simp)
    · rcases List.mem_cons.mp h with h' | h'
      · subst h'
        rw [show (⟨"b", some "a", "Page", "doc", some "", 1⟩ : Node).parent_id
          = some "a" from rfl] at hp
        cases hp
        exact ⟨⟨"a", none, "Root", "kb", none, 0⟩, by simp, rfl, Or.inl rfl⟩
      · cases h'
